import Mathlib

/-!
Verification of the redlines text-comparison library (src/redlines/redlines.py).

The development shallowly embeds the Python source into Lean:

* texts are `String`s, processed as `List Char`;
* `tokScan` embeds the scan of `re.findall(r"((?:[^()\s]+|[().?!-])\s*)", text)`
  (`tokenize_text`): at a whitespace character no alternative matches and the
  scanner advances one position; at `(` or `)` the single-character second
  alternative matches; at any other character the greedy first alternative
  matches a maximal run of characters that are neither whitespace nor a
  parenthesis; in either case trailing whitespace is absorbed greedily;
* `paraScan` embeds `re.split(r"((?:\n *)+)", text)` (capturing separators):
  a separator is a maximal run of newline/space characters beginning with a
  newline, and pieces and separators are returned interleaved;
* the `difflib` namespace embeds `difflib.SequenceMatcher(None, a, b)` as the
  source uses it (`isjunk=None`, hence `bjunk` is empty and the two junk
  extension loops of `find_longest_match` never fire; `autojunk=True`, hence
  for `len(b) >= 200` elements occurring more than `len(b) // 100 + 1` times
  are removed from `b2j` and never matched by the dynamic program, though the
  extension loops may still extend over them);
* `Redlines` mirrors the Python class: fallible accesses return
  `Except String _` where Python raises `ValueError`, and `compare` returns
  its result together with the updated object state.

Loops without a structural measure (the two match-extension loops and the
matching-block queue loop) are embedded with an explicit fuel argument that
provably dominates the number of iterations the Python loop performs
(`extendBack` runs at most `besti - alo <= besti` times, `extendFwd` at most
`ahi` times, and the queue loop strictly decreases the sum of
`(ahi - alo) + (bhi - blo) + 1` over the queue, initially
`len(a) + len(b) + 1`).
-/

/-- Python's whitespace set for `str`: the characters matched by `\s` in
`re` (Unicode mode) and stripped by `str.strip()`. -/
def pySpaceCodes : List Nat :=
  [9, 10, 11, 12, 13, 28, 29, 30, 31, 32, 133, 160, 5760,
   8192, 8193, 8194, 8195, 8196, 8197, 8198, 8199, 8200, 8201, 8202,
   8232, 8233, 8239, 8287, 12288]

/-- Whether a character is Python whitespace. -/
def isPySpace (c : Char) : Bool := pySpaceCodes.contains c.toNat

/-- A character the first tokenizer alternative `[^()\s]+` accepts: anything
but whitespace and the two parentheses. -/
def isWordChar (c : Char) : Bool := !(isPySpace c) && !(c == '(') && !(c == ')')

/-- The scan performed by `re.findall(tokenizer, text)` over the characters of
`text` (`tokenize_text`, redlines.py line 39): at a position every step
consumes at least one character, so the fuel `cs.length` of `tokScan`
dominates the number of steps; the fuel-exhausted arm is never reached. -/
def tokScanF : Nat → List Char → List (List Char)
  | 0, _ => []
  | _ + 1, [] => []
  | fuel + 1, c :: rest =>
    if isPySpace c then tokScanF fuel rest
    else if c == '(' || c == ')' then
      (c :: rest.takeWhile isPySpace) :: tokScanF fuel (rest.dropWhile isPySpace)
    else
      (c :: (rest.takeWhile isWordChar
          ++ (rest.dropWhile isWordChar).takeWhile isPySpace))
        :: tokScanF fuel ((rest.dropWhile isWordChar).dropWhile isPySpace)

/-- The tokenizer scan over a character list. -/
def tokScan (cs : List Char) : List (List Char) := tokScanF cs.length cs

/-- `tokenize_text` (redlines.py line 39). -/
def tokenize_text (text : String) : List String :=
  (tokScan text.data).map String.mk

/-- A character of a paragraph separator `(?:\n *)+`. -/
def isParaSepChar (c : Char) : Bool := c == '\n' || c == ' '

/-- The scan performed by `re.split(paragraph_pattern, text)`: the pattern has
a capturing group, so pieces and separators are returned interleaved. A
separator match is a maximal run of newline/space characters starting with a
newline. `acc` holds the current piece's characters in reverse. Every step
consumes at least one character, so the fuel `cs.length` of `paraScan`
dominates the number of steps; the fuel-exhausted arm is never reached. -/
def paraScanF : Nat → List Char → List Char → List String
  | 0, _, acc => [String.mk acc.reverse]
  | _ + 1, [], acc => [String.mk acc.reverse]
  | fuel + 1, c :: rest, acc =>
    if c == '\n' then
      String.mk acc.reverse :: String.mk (c :: rest.takeWhile isParaSepChar)
        :: paraScanF fuel (rest.dropWhile isParaSepChar) []
    else paraScanF fuel rest (c :: acc)

/-- The paragraph-split scan over a character list. -/
def paraScan (cs : List Char) (acc : List Char) : List String :=
  paraScanF cs.length cs acc

/-- Python `str.strip()`. -/
def pyStrip (s : String) : String :=
  String.mk (((s.data.dropWhile isPySpace).reverse.dropWhile isPySpace).reverse)

/-- `split_paragraphs` (redlines.py line 43): keep the split pieces that are
nonempty and do not fully match `\s+`, stripped. -/
def split_paragraphs (text : String) : List String :=
  (paraScan text.data []).filterMap fun s =>
    if s.data ≠ [] ∧ ¬ (s.data.all isPySpace = true) then some (pyStrip s) else none

/-- `concatenate_paragraphs_and_add_chr_182` (redlines.py line 62): append a
marker after every paragraph, then pop the trailing marker. -/
def concatenate_paragraphs_and_add_chr_182 (text : String) : String :=
  let paragraphs := split_paragraphs text
  let result := paragraphs.foldr (fun p acc => p :: " ¶ " :: acc) []
  String.join (if paragraphs.isEmpty then result else result.dropLast)

namespace difflib

/-- One matching block `(i, j, size)`: `a[i:i+size] == b[j:j+size]`. -/
abbrev Block := Nat × Nat × Nat

/-- One opcode `(tag, i1, i2, j1, j2)`. -/
abbrev Opcode := String × Nat × Nat × Nat × Nat

/-- SequenceMatcher's autojunk heuristic: with `isjunk=None` and
`autojunk=True`, an element of `b` is "popular" when `len(b) >= 200` and the
element occurs more than `len(b) // 100 + 1` times; popular elements are
deleted from `b2j`. -/
def popularIn (b : List String) (x : String) : Bool :=
  decide (200 ≤ b.length) && decide (b.length / 100 + 1 < b.count x)

/-- Whether the dynamic program of `find_longest_match` may pair `a[i]` with
`b[j]`: the values exist, are equal, and `b[j]` was not purged from `b2j`. -/
def tokMatch (a b : List String) (i j : Nat) : Bool :=
  match a.get? i, b.get? j with
  | some x, some y => x == y && !(popularIn b y)
  | _, _ => false

/-- Plain equality of `a[i]` and `b[j]`, as tested by the extension loops. -/
def tokEq (a b : List String) (i j : Nat) : Bool :=
  match a.get? i, b.get? j with
  | some x, some y => x == y
  | _, _ => false

/-- The `newj2len` dictionary built at row `i` of `find_longest_match`'s inner
loop, as a function over `j` (absent keys read 0, like `dict.get(k, 0)`).
`newj2len[j] = j2len.get(j - 1, 0) + 1` for each matchable `j` of
`[blo, bhi)`; Python's `j - 1` is `-1` when `j = 0`, reading the default 0. -/
def nextRow (a b : List String) (i blo bhi : Nat) (row : Nat → Nat) : Nat → Nat :=
  fun j =>
    if blo ≤ j ∧ j < bhi ∧ tokMatch a b i j then
      (if j = 0 then 0 else row (j - 1)) + 1
    else 0

/-- The ascending positions `j` of `[blo, bhi)` the inner loop visits at row
`i`: those of `b2j[a[i]]` with `blo <= j < bhi`. -/
def matchJs (a b : List String) (i blo bhi : Nat) : List Nat :=
  (List.range' blo (bhi - blo)).filter fun j => tokMatch a b i j

/-- The best-match update performed for one visited `j` at row `i`:
`if k > bestsize: besti, bestj, bestsize = i-k+1, j-k+1, k`. -/
def rowUpd (i : Nat) (row : Nat → Nat) (best : Nat × Nat × Nat) (j : Nat) :
    Nat × Nat × Nat :=
  let k := row j
  if best.2.2 < k then (i + 1 - k, j + 1 - k, k) else best

/-- The outer loop of `find_longest_match`'s dynamic program over the listed
rows, threading the `j2len` function and the current best. -/
def fmDP (a b : List String) (blo bhi : Nat) :
    List Nat → (Nat → Nat) → Nat × Nat × Nat → Nat × Nat × Nat
  | [], _, best => best
  | i :: is, row, best =>
    let row2 := nextRow a b i blo bhi row
    fmDP a b blo bhi is row2 ((matchJs a b i blo bhi).foldl (rowUpd i row2) best)

/-- The backward extension loop of `find_longest_match` (with `bjunk` empty,
its guard is only the bounds and the element equality). The fuel dominates
the iteration count, which is at most `besti - alo`. -/
def extendBack (a b : List String) (alo blo : Nat) :
    Nat → Nat → Nat → Nat → Nat × Nat × Nat
  | 0, bi, bj, bs => (bi, bj, bs)
  | fuel + 1, bi, bj, bs =>
    if alo < bi ∧ blo < bj ∧ tokEq a b (bi - 1) (bj - 1) then
      extendBack a b alo blo fuel (bi - 1) (bj - 1) (bs + 1)
    else (bi, bj, bs)

/-- The forward extension loop of `find_longest_match`. The fuel dominates
the iteration count, which is at most `ahi`. -/
def extendFwd (a b : List String) (ahi bhi bi bj : Nat) : Nat → Nat → Nat
  | 0, bs => bs
  | fuel + 1, bs =>
    if bi + bs < ahi ∧ bj + bs < bhi ∧ tokEq a b (bi + bs) (bj + bs) then
      extendFwd a b ahi bhi bi bj fuel (bs + 1)
    else bs

/-- `SequenceMatcher.find_longest_match(alo, ahi, blo, bhi)` with
`isjunk=None`: the dynamic program from `(alo, blo, 0)`, then the backward
and forward non-junk extension loops (the junk-extension loops never fire
since `bjunk` is empty). -/
def find_longest_match (a b : List String) (alo ahi blo bhi : Nat) :
    Nat × Nat × Nat :=
  let best := fmDP a b blo bhi (List.range' alo (ahi - alo)) (fun _ => 0) (alo, blo, 0)
  let e := extendBack a b alo blo best.1 best.1 best.2.1 best.2.2
  (e.1, e.2.1, extendFwd a b ahi bhi e.1 e.2.1 ahi e.2.2)

/-- The queue loop of `get_matching_blocks`. Python pops from the end of its
list; here the head of `queue` is the next rectangle popped, and a split
pushes the left part first and the right part on top of it, so the right
part is popped first, as in Python. Found blocks are accumulated (order is
irrelevant: they are sorted afterwards). -/
def mbLoop (a b : List String) :
    Nat → List (Nat × Nat × Nat × Nat) → List Block → List Block
  | 0, _, acc => acc
  | _ + 1, [], acc => acc
  | fuel + 1, (alo, ahi, blo, bhi) :: queue, acc =>
    let m := find_longest_match a b alo ahi blo bhi
    if m.2.2 = 0 then mbLoop a b fuel queue acc
    else
      let q1 := if alo < m.1 ∧ blo < m.2.1 then (alo, m.1, blo, m.2.1) :: queue else queue
      let q2 :=
        if m.1 + m.2.2 < ahi ∧ m.2.1 + m.2.2 < bhi then
          (m.1 + m.2.2, ahi, m.2.1 + m.2.2, bhi) :: q1
        else q1
      mbLoop a b fuel q2 (m :: acc)

/-- Lexicographic order on blocks: Python's `list.sort()` on 3-tuples. -/
def blockLe (x y : Block) : Prop :=
  x.1 < y.1 ∨ (x.1 = y.1 ∧ (x.2.1 < y.2.1 ∨ (x.2.1 = y.2.1 ∧ x.2.2 ≤ y.2.2)))

instance : DecidableRel blockLe := fun x y => by
  unfold blockLe; infer_instance

instance : IsTotal Block blockLe := ⟨by intro x y; unfold blockLe; omega⟩

instance : IsTrans Block blockLe := ⟨by intro x y z; unfold blockLe; omega⟩

/-- The adjacent-block coalescing loop of `get_matching_blocks`, started with
the pending block `(0, 0, 0)`. -/
def mergeAdj : Block → List Block → List Block
  | (i1, j1, k1), [] => if k1 = 0 then [] else [(i1, j1, k1)]
  | (i1, j1, k1), (i2, j2, k2) :: rest =>
    if i1 + k1 = i2 ∧ j1 + k1 = j2 then mergeAdj (i1, j1, k1 + k2) rest
    else if k1 = 0 then mergeAdj (i2, j2, k2) rest
    else (i1, j1, k1) :: mergeAdj (i2, j2, k2) rest

/-- `SequenceMatcher.get_matching_blocks()`: run the queue loop (the fuel
`len(a) + len(b) + 1` dominates the iteration count), sort the found blocks,
coalesce adjacent ones, and append the terminal block
`(len(a), len(b), 0)`. -/
def get_matching_blocks (a b : List String) : List Block :=
  let raw := mbLoop a b (a.length + b.length + 1) [(0, a.length, 0, b.length)] []
  mergeAdj (0, 0, 0) (raw.insertionSort blockLe) ++ [(a.length, b.length, 0)]

/-- The opcode-emitting loop of `get_opcodes`, threading the current
positions `i, j`. -/
def opcodesLoop (i j : Nat) : List Block → List Opcode
  | [] => []
  | (ai, bj, k) :: rest =>
    let gap : List Opcode :=
      if i < ai ∧ j < bj then [("replace", i, ai, j, bj)]
      else if i < ai then [("delete", i, ai, j, bj)]
      else if j < bj then [("insert", i, ai, j, bj)]
      else []
    let eqs : List Opcode := if k ≠ 0 then [("equal", ai, ai + k, bj, bj + k)] else []
    gap ++ eqs ++ opcodesLoop (ai + k) (bj + k) rest

/-- `SequenceMatcher.get_opcodes()`. -/
def get_opcodes (a b : List String) : List Opcode :=
  opcodesLoop 0 0 (get_matching_blocks a b)

end difflib

/-- The keyword-options bag of `Redlines`, restricted to the keys the class
reads. `markdown_style = none` models the key being absent;
`markdown_style = some none` models the key present with Python value
`None`. -/
structure Options where
  markdown_style : Option (Option String) := none
  ins_class : Option String := none
  del_class : Option String := none
deriving DecidableEq

/-- The state of a `Redlines` object: `_source`, `_test`, `_seq1`, `_seq2`
and `options`. `test = none` and `seq2 = none` model the attributes still
holding Python `None`. -/
structure Redlines where
  source : String
  test : Option String
  seq1 : List String
  seq2 : Option (List String)
  options : Options
deriving DecidableEq

/-- What the `source`/`test` property setters store as the token sequence. -/
def buildSeq (text : String) : List String :=
  tokenize_text (concatenate_paragraphs_and_add_chr_182 text)

/-- Python truthiness of an optional string: `None` and `""` are falsy. -/
def strTruthy : Option String → Bool
  | none => false
  | some s => s != ""

/-- The message of the `ValueError` raised when no test string was set
(redlines.py lines 173 and 388). -/
def missingTestMsg : String :=
  "No test string was provided when the function was called, or during initialisation."

/-- `Redlines.__init__(source, test, **options)`: the source setter always
runs; the test setter runs only when `test` is truthy (so the empty string,
like `None`, leaves `_test` and `_seq2` unset). -/
def Redlines.make (source : String) (test : Option String) (options : Options) :
    Redlines :=
  let base : Redlines :=
    { source := source, test := none, seq1 := buildSeq source, seq2 := none,
      options := options }
  match test with
  | some t => if t = "" then base else
      { base with test := some t, seq2 := some (buildSeq t) }
  | none => base

/-- The `opcodes` property: raises when `_seq2 is None`, else returns
`SequenceMatcher(None, _seq1, _seq2).get_opcodes()`. -/
def Redlines.opcodes (r : Redlines) : Except String (List difflib.Opcode) :=
  match r.seq2 with
  | none => .error missingTestMsg
  | some s2 => .ok (difflib.get_opcodes r.seq1 s2)

/-- The default insertion wrapper of `output_markdown`. -/
def mdInsDefault : String × String :=
  ("<span style='color:green;font-weight:700;'>", "</span>")

/-- The default deletion wrapper of `output_markdown`. -/
def mdDelDefault : String × String :=
  ("<span style='color:red;font-weight:700;text-decoration:line-through;'>", "</span>")

/-- The `md_styles` selection of `output_markdown` (redlines.py lines
254-311): the default wrappers, overridden when the `markdown_style` key is
present and matches a recognized value; an unrecognized string falls through
every branch and keeps the default. Returns (insertion, deletion). -/
def mdStyles (opts : Options) : (String × String) × (String × String) :=
  match opts.markdown_style with
  | none => (mdInsDefault, mdDelDefault)
  | some styleVal =>
    match styleVal with
    | none => (("<ins>", "</ins>"), ("<del>", "</del>"))
    | some style =>
      if style = "none" then (("<ins>", "</ins>"), ("<del>", "</del>"))
      else if style = "red" then
        (("<span style='color:red;font-weight:700;'>", "</span>"),
         ("<span style='color:red;font-weight:700;text-decoration:line-through;'>",
          "</span>"))
      else if style = "custom_css" then
        let ins_class := (opts.ins_class).getD "redline-inserted"
        let del_class := (opts.del_class).getD "redline-deleted"
        (("<span class='" ++ ins_class ++ "'>", "</span>"),
         ("<span class='" ++ del_class ++ "'>", "</span>"))
      else if style = "ghfm" then (("**", "**"), ("~~", "~~"))
      else if style = "bbcode" then
        (("[b][color=green]", "[/color][/b]"), ("[s][color=red]", "[/color][/s]"))
      else (mdInsDefault, mdDelDefault)

/-- Python slice `l[i1:i2]` for `0 <= i1, i2`. -/
def pySlice (l : List String) (i1 i2 : Nat) : List String :=
  (l.take i2).drop i1

/-- The joined text of the slice `l[i1:i2]`. -/
def joinSlice (l : List String) (i1 i2 : Nat) : String :=
  String.join (pySlice l i1 i2)

/-- `re.sub("¶ ", "\n\n", s)` over the characters of `s`. -/
def subPilcrow : List Char → List Char
  | [] => []
  | '¶' :: ' ' :: rest => '\n' :: '\n' :: subPilcrow rest
  | c :: rest => c :: subPilcrow rest

/-- `re.split("¶ ", s)` over the characters of `s` (no capturing group, so
only the pieces are returned; the result is never empty). -/
def splitPilcrow : List Char → List (List Char)
  | [] => [[]]
  | '¶' :: ' ' :: rest => [] :: splitPilcrow rest
  | c :: rest =>
    match splitPilcrow rest with
    | [] => [[c]]
    | piece :: pieces => (c :: piece) :: pieces

/-- The insertion rendering of one slice: split on the paragraph marker,
wrap each piece, append a paragraph break after each, and pop the final
break (the splits list is never empty, so Python's guarded `pop()` always
runs). -/
def insertChunks (ins : String × String) (s : String) : List String :=
  ((splitPilcrow s.data).foldr
    (fun piece acc => (ins.1 ++ String.mk piece ++ ins.2) :: "\n\n" :: acc)
    []).dropLast

/-- The strings appended to `result` for one opcode in `output_markdown`
(redlines.py lines 313-344). -/
def renderOp (seq1 seq2 : List String) (ins del : String × String)
    (op : difflib.Opcode) : List String :=
  match op with
  | (tag, i1, i2, j1, j2) =>
    if tag = "equal" then
      [String.mk (subPilcrow (joinSlice seq1 i1 i2).data)]
    else if tag = "insert" then
      insertChunks ins (joinSlice seq2 j1 j2)
    else if tag = "delete" then
      [del.1 ++ joinSlice seq1 i1 i2 ++ del.2]
    else if tag = "replace" then
      (del.1 ++ joinSlice seq1 i1 i2 ++ del.2) :: insertChunks ins (joinSlice seq2 j1 j2)
    else []

/-- The full markdown rendering of an opcode list. -/
def renderMarkdown (seq1 seq2 : List String)
    (sty : (String × String) × (String × String)) (ops : List difflib.Opcode) : String :=
  String.join ((ops.map (renderOp seq1 seq2 sty.1 sty.2)).flatten)

/-- The `output_markdown` property: raises through `opcodes` when `_seq2 is
None`, else renders every opcode under the selected style wrappers. -/
def Redlines.output_markdown (r : Redlines) : Except String String :=
  match r.seq2 with
  | none => .error missingTestMsg
  | some s2 =>
    .ok (renderMarkdown r.seq1 s2 (mdStyles r.options) (difflib.get_opcodes r.seq1 s2))

/-- The tail of `Redlines.compare` after the test-string handling: replace
the options when a nonempty options bag was passed, then render when
`output == "markdown"` (any other format returns Python `None`). -/
def Redlines.compareTail (r : Redlines) (output : String) (opts : Option Options) :
    Except String (Option String × Redlines) :=
  let r2 := match opts with
    | some o => { r with options := o }
    | none => r
  if output = "markdown" then (r2.output_markdown).map (fun s => (some s, r2))
  else .ok (none, r2)

/-- `Redlines.compare(test, output, **options)` (redlines.py line 374): with
a truthy `test` equal to the stored one, return `output_markdown` at once
(before any option update); with a truthy different `test`, run the test
setter; with a falsy `test` and no stored test, raise. The updated object
state is returned alongside the result. -/
def Redlines.compare (r : Redlines) (test : Option String) (output : String)
    (opts : Option Options) : Except String (Option String × Redlines) :=
  if strTruthy test then
    if strTruthy r.test ∧ test = r.test then
      (r.output_markdown).map (fun s => (some s, r))
    else
      let r1 := match test with
        | some t => { r with test := some t, seq2 := some (buildSeq t) }
        | none => r
      r1.compareTail output opts
  else if r.test = none then .error missingTestMsg
  else r.compareTail output opts

/-- Equality of `Except` results is decidable componentwise; used to evaluate
the embedded operations at concrete inputs. -/
instance {ε α : Type} [DecidableEq ε] [DecidableEq α] : DecidableEq (Except ε α) :=
  fun x y =>
    match x, y with
    | .ok u, .ok v => if h : u = v then .isTrue (by rw [h]) else .isFalse (by simp [h])
    | .error u, .error v => if h : u = v then .isTrue (by rw [h]) else .isFalse (by simp [h])
    | .ok _, .error _ => .isFalse (by simp)
    | .error _, .ok _ => .isFalse (by simp)

set_option maxRecDepth 100000 in
/-- C7: with source "The quick brown fox jumps over the lazy dog." and test
"The quick brown fox walks past the lazy dog.", the opcodes are exactly
[(equal,0,4,0,4), (replace,4,6,4,6), (equal,6,9,6,9)] and the default-style
markdown output is exactly the documented string. -/
theorem C7_fox_example :
    (Redlines.make "The quick brown fox jumps over the lazy dog."
        (some "The quick brown fox walks past the lazy dog.") {}).opcodes
      = .ok [("equal", 0, 4, 0, 4), ("replace", 4, 6, 4, 6), ("equal", 6, 9, 6, 9)]
    ∧ (Redlines.make "The quick brown fox jumps over the lazy dog."
        (some "The quick brown fox walks past the lazy dog.") {}).output_markdown
      = .ok "The quick brown fox <span style='color:red;font-weight:700;text-decoration:line-through;'>jumps over </span><span style='color:green;font-weight:700;'>walks past </span>the lazy dog." := by
  decide

/-- C3 counterexample: the first tokenizer alternative accepts the four
punctuation characters, so "dog." is a single token, not "dog" then ".". -/
theorem C3_cex : tokenize_text "dog." = ["dog."] ∧ tokenize_text "dog." ≠ ["dog", "."] := by
  decide

/-- Tokens produced by the tokenizer scan split into a core and trailing
whitespace, where the core is a single parenthesis or a nonempty run of
word characters (no whitespace, no parentheses). -/
theorem tokScanF_token_structure :
    ∀ (fuel : Nat) (cs t : List Char), t ∈ tokScanF fuel cs →
      ∃ core ws : List Char,
        t = core ++ ws ∧ (∀ c ∈ ws, isPySpace c = true)
          ∧ (core = ['('] ∨ core = [')']
              ∨ (core ≠ [] ∧ ∀ c ∈ core, isWordChar c = true)) := by
  intro fuel
  induction fuel with
  | zero => intro cs t h; simp [tokScanF] at h
  | succ fuel ih =>
    intro cs t h
    match cs with
    | [] => simp [tokScanF] at h
    | c :: rest =>
      rw [tokScanF] at h
      by_cases h1 : isPySpace c = true
      · rw [if_pos h1] at h; exact ih rest t h
      · rw [if_neg h1] at h
        by_cases h2 : (c == '(' || c == ')') = true
        · rw [if_pos h2] at h
          rcases List.mem_cons.mp h with rfl | hmem
          · refine ⟨[c], rest.takeWhile isPySpace, rfl,
              fun d hd => List.mem_takeWhile_imp hd, ?_⟩
            have h2' : c = '(' ∨ c = ')' := by simpa using h2
            rcases h2' with rfl | rfl
            · exact Or.inl rfl
            · exact Or.inr (Or.inl rfl)
          · exact ih _ t hmem
        · rw [if_neg h2] at h
          rcases List.mem_cons.mp h with rfl | hmem
          · have h2' : ¬ (c = '(' ∨ c = ')') := by simpa using h2
            simp only [not_or] at h2'
            have hw : isWordChar c = true := by simp [isWordChar, h1, h2'.1, h2'.2]
            refine ⟨c :: rest.takeWhile isWordChar,
              (rest.dropWhile isWordChar).takeWhile isPySpace, by simp,
              fun d hd => List.mem_takeWhile_imp hd,
              Or.inr (Or.inr ⟨by simp, ?_⟩)⟩
            intro d hd
            rcases List.mem_cons.mp hd with rfl | hd
            · exact hw
            · exact List.mem_takeWhile_imp hd
          · exact ih _ t hmem

/-- C3 amended: every token of `tokenize_text` is a core plus trailing
whitespace; the core is either a single parenthesis character or a nonempty
run of characters that are neither whitespace nor parentheses — so a
parenthesis is never embedded in a longer token, but the characters
. ? ! - are word characters and can be (e.g. "dog." is one token). -/
theorem C3_token_structure (text t : String) (h : t ∈ tokenize_text text) :
    ∃ core ws : List Char,
      t.data = core ++ ws ∧ (∀ c ∈ ws, isPySpace c = true)
        ∧ (core = ['('] ∨ core = [')']
            ∨ (core ≠ [] ∧ ∀ c ∈ core, isWordChar c = true)) := by
  obtain ⟨u, hu, rfl⟩ := List.mem_map.mp h
  exact tokScanF_token_structure _ _ u hu

/-- C3 witness: the token "(" of tokenize_text "(a)". -/
theorem C3_token_structure_witness :
    (("(" : String) ∈ tokenize_text "(a)")
      ∧ ∃ core ws : List Char,
          ("(" : String).data = core ++ ws ∧ (∀ c ∈ ws, isPySpace c = true)
            ∧ (core = ['('] ∨ core = [')']
                ∨ (core ≠ [] ∧ ∀ c ∈ core, isWordChar c = true)) :=
  ⟨by decide, C3_token_structure "(a)" "(" (by decide)⟩

/-- C4: with no test text ever set, `opcodes` (and the rendering built on it)
fails with the descriptive missing-test-text message rather than returning an
empty list; once a (truthy) test text is set, `opcodes` returns normally. -/
theorem C4_missing_test (s t : String) (o : Options) (h : t ≠ "") :
    (Redlines.make s none o).opcodes = .error missingTestMsg
      ∧ (Redlines.make s none o).output_markdown = .error missingTestMsg
      ∧ ∃ ops, (Redlines.make s (some t) o).opcodes = .ok ops := by
  refine ⟨rfl, rfl, difflib.get_opcodes (buildSeq s) (buildSeq t), ?_⟩
  simp [Redlines.make, Redlines.opcodes, h]

/-- C4 witness at source "a", test "b". -/
theorem C4_missing_test_witness :
    ("b" : String) ≠ ""
      ∧ ((Redlines.make "a" none {}).opcodes = .error missingTestMsg
        ∧ (Redlines.make "a" none {}).output_markdown = .error missingTestMsg
        ∧ ∃ ops, (Redlines.make "a" (some "b") {}).opcodes = .ok ops) :=
  ⟨by decide, C4_missing_test "a" "b" {} (by decide)⟩

/-- C5 counterexample: comparing the whitespace-only text " " against itself
yields an empty opcode list (its token sequence is empty), not a single
spanning equal opcode as the claim states for every text. -/
theorem C5_cex :
    (Redlines.make " " (some " ") {}).opcodes = .ok []
      ∧ (Redlines.make " " (some " ") {}).opcodes
          ≠ .ok [("equal", 0, (buildSeq " ").length, 0, (buildSeq " ").length)] := by
  constructor
  · decide
  · decide

/-- C6 counterexample: when the supplied test string equals the stored test
text, `compare` returns before updating the options: the returned rendering
uses the old (default) style, not the newly supplied ghfm style. -/
theorem C6_cex :
    ((Redlines.make "x y" (some "x z") {}).compare (some "x z") "markdown"
        (some { markdown_style := some (some "ghfm") })).map Prod.fst
      ≠ ((Redlines.make "x y" (some "x z")
            { markdown_style := some (some "ghfm") }).output_markdown).map some := by
  decide

/-- With a truthy test string different from the stored one, `compare` sets
the test text, replaces the options, and renders under the new state. -/
theorem compare_updates (r : Redlines) (t1 : String) (o1 : Options)
    (h1 : t1 ≠ "") (h2 : r.test ≠ some t1) :
    r.compare (some t1) "markdown" (some o1)
      = (Redlines.output_markdown
            { r with test := some t1, seq2 := some (buildSeq t1), options := o1 }).map
          (fun s =>
            (some s, { r with test := some t1, seq2 := some (buildSeq t1), options := o1 })) := by
  have hA : strTruthy (some t1) = true := by simp [strTruthy, h1]
  have hB : ¬ (strTruthy r.test = true ∧ some t1 = r.test) := fun e => h2 e.2.symm
  simp [Redlines.compare, hA, hB, Redlines.compareTail]

/-- C6 amended: when `compare` supplies a truthy test string different from
the stored test text together with new options, the options are updated
before rendering: the result is exactly the markdown rendering of a Redlines
object built with the new test text and the new options (when the supplied
test string equals the stored one, `compare` instead returns the rendering
under the old options unchanged). -/
theorem C6_options_updated (src t1 : String) (t0 : Option String) (o0 o1 : Options)
    (h1 : t1 ≠ "") (h2 : (Redlines.make src t0 o0).test ≠ some t1) :
    (Redlines.make src t0 o0).compare (some t1) "markdown" (some o1)
      = ((Redlines.make src (some t1) o1).output_markdown).map
          (fun s => (some s, Redlines.make src (some t1) o1)) := by
  have hsrc : (Redlines.make src t0 o0).source = src := by
    cases t0 with
    | none => rfl
    | some t => by_cases ht : t = "" <;> simp [Redlines.make, ht]
  have hseq : (Redlines.make src t0 o0).seq1 = buildSeq src := by
    cases t0 with
    | none => rfl
    | some t => by_cases ht : t = "" <;> simp [Redlines.make, ht]
  have key : ∀ rr : Redlines, rr.source = src → rr.seq1 = buildSeq src →
      ({ rr with test := some t1, seq2 := some (buildSeq t1), options := o1 } : Redlines)
        = Redlines.make src (some t1) o1 := by
    intro rr hs hq
    cases rr
    simp_all [Redlines.make, if_neg h1]
  rw [compare_updates _ _ _ h1 h2, key _ hsrc hseq]

/-- C6 witness: stored test "x q", supplied test "x z" with new ghfm options. -/
theorem C6_options_updated_witness :
    (("x z" : String) ≠ "" ∧ (Redlines.make "x y" (some "x q") {}).test ≠ some "x z")
      ∧ (Redlines.make "x y" (some "x q") {}).compare (some "x z") "markdown"
          (some { markdown_style := some (some "ghfm") })
        = ((Redlines.make "x y" (some "x z")
              { markdown_style := some (some "ghfm") }).output_markdown).map
            (fun s => (some s, Redlines.make "x y" (some "x z")
              { markdown_style := some (some "ghfm") })) :=
  ⟨⟨by decide, by decide⟩,
    C6_options_updated "x y" "x z" (some "x q") {} _ (by decide) (by decide)⟩

set_option maxRecDepth 100000 in
/-- C8 counterexample: for source "Hello\nWorld" and test
"Hello\nWorld\nAgain", "World" is not rendered unstyled: the source's last
token is "World" (no trailing space) while the test's is "World ", so the
diff emits a replace whose rendering wraps "World" in deletion styling and
"World " in insertion styling; the output is not the claimed rendering with
only "Again" styled. -/
theorem C8_cex :
    (Redlines.make "Hello\nWorld" (some "Hello\nWorld\nAgain") {}).output_markdown
      = .ok "Hello \n\n<span style='color:red;font-weight:700;text-decoration:line-through;'>World</span><span style='color:green;font-weight:700;'>World </span>\n\n<span style='color:green;font-weight:700;'>Again</span>"
    ∧ (Redlines.make "Hello\nWorld" (some "Hello\nWorld\nAgain") {}).output_markdown
      ≠ .ok "Hello \n\nWorld \n\n<span style='color:green;font-weight:700;'>Again</span>" := by
  constructor
  · decide
  · decide

set_option maxRecDepth 100000 in
/-- C8 amended: for source "Hello\nWorld" and test "Hello\nWorld\nAgain" the
rendering shows "Hello " unstyled, a true paragraph break, then "World" in
deletion styling followed by "World " in insertion styling (the source token
lacks the trailing space the test token has), a true paragraph break, and
"Again" in insertion styling; the literal marker character ¶ does not appear
anywhere in the output. -/
theorem C8_paragraph_example :
    (Redlines.make "Hello\nWorld" (some "Hello\nWorld\nAgain") {}).output_markdown
      = .ok ("Hello \n\n" ++ mdDelDefault.1 ++ "World" ++ mdDelDefault.2
          ++ mdInsDefault.1 ++ "World " ++ mdInsDefault.2 ++ "\n\n"
          ++ mdInsDefault.1 ++ "Again" ++ mdInsDefault.2)
    ∧ '¶' ∉ ("Hello \n\n" ++ mdDelDefault.1 ++ "World" ++ mdDelDefault.2
          ++ mdInsDefault.1 ++ "World " ++ mdInsDefault.2 ++ "\n\n"
          ++ mdInsDefault.1 ++ "Again" ++ mdInsDefault.2).data := by
  constructor
  · decide
  · decide

/-- The style selection ignores every option other than the recognized
markdown_style values: an unrecognized style string selects the default
wrappers, exactly as an absent markdown_style key does. -/
theorem mdStyles_unknown (ic dc : Option String) (style : String)
    (h : style ∉ (["none", "red", "custom_css", "ghfm", "bbcode"] : List String)) :
    mdStyles { markdown_style := some (some style), ins_class := ic, del_class := dc }
      = mdStyles { markdown_style := none, ins_class := ic, del_class := dc } := by
  simp only [List.mem_cons, not_or] at h
  obtain ⟨h1, h2, h3, h4, h5, -⟩ := h
  simp [mdStyles, h1, h2, h3, h4, h5]

/-- C9: an unrecognized markdown_style value silently falls back to the
default dialect: the markdown output is byte-identical to the output with no
markdown_style option at all (in particular no error is raised). -/
theorem C9_unknown_style_default (src : String) (tst : Option String)
    (ic dc : Option String) (style : String)
    (h : style ∉ (["none", "red", "custom_css", "ghfm", "bbcode"] : List String)) :
    (Redlines.make src tst
        { markdown_style := some (some style), ins_class := ic, del_class := dc }).output_markdown
      = (Redlines.make src tst
        { markdown_style := none, ins_class := ic, del_class := dc }).output_markdown := by
  have hm := mdStyles_unknown ic dc style h
  cases tst with
  | none => simp [Redlines.make, Redlines.output_markdown, hm]
  | some t =>
    by_cases ht : t = "" <;>
      simp [Redlines.make, Redlines.output_markdown, hm, ht]

/-- C9 witness: the unrecognized style "rainbow" at a concrete comparison. -/
theorem C9_unknown_style_default_witness :
    (("rainbow" : String) ∉ (["none", "red", "custom_css", "ghfm", "bbcode"] : List String))
      ∧ (Redlines.make "a b" (some "a c")
            { markdown_style := some (some "rainbow"), ins_class := none, del_class := none }).output_markdown
        = (Redlines.make "a b" (some "a c")
            { markdown_style := none, ins_class := none, del_class := none }).output_markdown :=
  ⟨by decide, C9_unknown_style_default "a b" (some "a c") none none "rainbow" (by decide)⟩

/-- C10: constructing with the empty string as test behaves exactly as if no
test was supplied: the state is identical (no test token sequence is built),
`opcodes` raises the missing-test error, and so does `compare` when invoked
with an empty test string while no test is stored. -/
theorem C10_empty_test_like_none (s : String) (o : Options) (out : String) :
    Redlines.make s (some "") o = Redlines.make s none o
      ∧ (Redlines.make s (some "") o).opcodes = .error missingTestMsg
      ∧ (Redlines.make s none o).compare (some "") out none = .error missingTestMsg := by
  refine ⟨rfl, rfl, rfl⟩

/-- The characters of a joined string list are the flattened character
lists. -/
theorem join_data (l : List String) : (String.join l).data = (l.map String.data).flatten := by
  have key : ∀ (l : List String) (init : String),
      (l.foldl (fun r t => r ++ t) init).data = init.data ++ (l.map String.data).flatten := by
    intro l
    induction l with
    | nil => intro init; simp
    | cons x xs ih =>
      intro init
      simp only [List.foldl_cons, List.map_cons, List.flatten_cons]
      rw [ih]
      simp [String.data_append]
  have := key l ""
  simp only [String.join]
  rw [this]
  rfl

/-- The head of `dropWhile p l` does not satisfy `p`. -/
theorem head_dropWhile_false {p : Char → Bool} :
    ∀ {l : List Char} {c : Char} {t : List Char}, l.dropWhile p = c :: t → p c = false := by
  intro l
  induction l with
  | nil => intro c t h; simp [List.dropWhile] at h
  | cons x xs ih =>
    intro c t h
    rw [List.dropWhile_cons] at h
    by_cases hp : p x = true
    · rw [if_pos hp] at h; exact ih h
    · rw [if_neg hp] at h
      cases h
      simpa using hp

/-- Dropping a prefix stops before a final element that fails the
predicate. -/
theorem dropWhile_append_singleton {p : Char → Bool} (c : Char) (h : p c = false) :
    ∀ (xs : List Char), (xs ++ [c]).dropWhile p = xs.dropWhile p ++ [c] := by
  intro xs
  induction xs with
  | nil => simp [List.dropWhile, h]
  | cons x xs ih =>
    by_cases hp : p x = true
    · simp only [List.cons_append, List.dropWhile_cons, if_pos hp, ih]
    · simp only [List.cons_append, List.dropWhile_cons, if_neg hp]

/-- Stripping a piece that contains a non-whitespace character yields a
nonempty string starting with a non-whitespace character. -/
theorem pyStrip_spec (s : String) (h : ∃ x ∈ s.data, ¬ isPySpace x = true) :
    ∃ c t, (pyStrip s).data = c :: t ∧ isPySpace c = false := by
  obtain ⟨x, hx, hxp⟩ := h
  have hne : s.data.dropWhile isPySpace ≠ [] := by
    intro he
    exact hxp (List.dropWhile_eq_nil_iff.mp he x hx)
  obtain ⟨c, t, hct⟩ := List.exists_cons_of_ne_nil hne
  have hc : isPySpace c = false := head_dropWhile_false hct
  refine ⟨c, ((t.reverse.dropWhile isPySpace).reverse : List Char), ?_, hc⟩
  show (((s.data.dropWhile isPySpace).reverse.dropWhile isPySpace).reverse : List Char) = _
  rw [hct]
  have : (c :: t).reverse = t.reverse ++ [c] := by simp
  rw [this, dropWhile_append_singleton c hc]
  simp

/-- Flattening the tokenizer scan of a character list that does not start
with whitespace reproduces the list: every character belongs to exactly one
token. -/
theorem tokScanF_flatten :
    ∀ (fuel : Nat) (cs : List Char), cs.length ≤ fuel →
      (∀ c t, cs = c :: t → isPySpace c = false) →
      (tokScanF fuel cs).flatten = cs := by
  intro fuel
  induction fuel with
  | zero =>
    intro cs hlen _
    have : cs = [] := List.eq_nil_of_length_eq_zero (Nat.le_zero.mp hlen)
    subst this; rfl
  | succ fuel ih =>
    intro cs hlen hhead
    match cs with
    | [] => rfl
    | c :: rest =>
      have hc : isPySpace c = false := hhead c rest rfl
      rw [tokScanF, if_neg (by simp [hc])]
      by_cases h2 : (c == '(' || c == ')') = true
      · rw [if_pos h2]
        have hlen' : (rest.dropWhile isPySpace).length ≤ fuel := by
          have hsub : List.Sublist (rest.dropWhile isPySpace) rest :=
            List.dropWhile_sublist _
          have := hsub.length_le
          simp only [List.length_cons] at hlen; omega
        have hh' : ∀ c' t', rest.dropWhile isPySpace = c' :: t' → isPySpace c' = false :=
          fun c' t' h => head_dropWhile_false h
        simp only [List.flatten_cons, ih _ hlen' hh', List.cons_append,
          List.takeWhile_append_dropWhile]
      · rw [if_neg h2]
        have hlen' : (((rest.dropWhile isWordChar).dropWhile isPySpace)).length ≤ fuel := by
          have s1 : List.Sublist (rest.dropWhile isWordChar) rest :=
            List.dropWhile_sublist _
          have s2 : List.Sublist ((rest.dropWhile isWordChar).dropWhile isPySpace)
              (rest.dropWhile isWordChar) := List.dropWhile_sublist _
          have g1 := s1.length_le
          have g2 := s2.length_le
          simp only [List.length_cons] at hlen; omega
        have hh' : ∀ c' t', (rest.dropWhile isWordChar).dropWhile isPySpace = c' :: t' →
            isPySpace c' = false := fun c' t' h => head_dropWhile_false h
        simp only [List.flatten_cons, ih _ hlen' hh', List.cons_append, List.append_assoc,
          List.takeWhile_append_dropWhile]

/-- Every kept paragraph of `split_paragraphs` is nonempty and starts with a
non-whitespace character. -/
theorem split_paragraphs_head (text : String) (p : String)
    (hp : p ∈ split_paragraphs text) :
    ∃ c t, p.data = c :: t ∧ isPySpace c = false := by
  unfold split_paragraphs at hp
  obtain ⟨s, _, hs⟩ := List.mem_filterMap.mp hp
  by_cases hcond : s.data ≠ [] ∧ ¬ (s.data.all isPySpace = true)
  · rw [if_pos hcond] at hs
    cases hs
    apply pyStrip_spec
    obtain ⟨x, hx, hxp⟩ := by
      simp only [List.all_eq_true, not_forall] at hcond
      exact hcond.2
    exact ⟨x, hx, by simpa using hxp⟩
  · rw [if_neg hcond] at hs
    cases hs

/-- The paragraph-normalized text is empty or starts with a non-whitespace
character. -/
theorem concat_head (text : String) :
    ∀ c t, (concatenate_paragraphs_and_add_chr_182 text).data = c :: t →
      isPySpace c = false := by
  intro c t h
  unfold concatenate_paragraphs_and_add_chr_182 at h
  cases hps : split_paragraphs text with
  | nil => rw [hps] at h; simp at h
  | cons p rest =>
    have hp : p ∈ split_paragraphs text := by rw [hps]; exact List.mem_cons_self _ _
    obtain ⟨c', t', hpd, hc'⟩ := split_paragraphs_head text p hp
    rw [hps] at h
    simp only [List.foldr_cons, List.isEmpty_cons, Bool.false_eq_true, if_false] at h
    have hdl : (p :: " ¶ " :: List.foldr (fun p acc => p :: " ¶ " :: acc) [] rest).dropLast
        = p :: (" ¶ " :: List.foldr (fun p acc => p :: " ¶ " :: acc) [] rest).dropLast := by
      rfl
    rw [hdl, join_data, List.map_cons, List.flatten_cons, hpd] at h
    simp only [List.cons_append] at h
    injection h with h1 _
    rw [← h1]
    exact hc'

/-- C2: concatenating (in order) all tokens produced by tokenization
reproduces exactly the paragraph-normalized form of the input text — the
string obtained by splitting at newline runs, trimming each paragraph,
dropping empty paragraphs and rejoining with the " ¶ " marker — so every
character of that normalized string belongs to exactly one token. -/
theorem C2_roundtrip (text : String) :
    String.join (tokenize_text (concatenate_paragraphs_and_add_chr_182 text))
      = concatenate_paragraphs_and_add_chr_182 text := by
  apply String.ext
  rw [join_data]
  unfold tokenize_text
  rw [List.map_map]
  have hmk : (List.map (String.data ∘ String.mk)
      (tokScan (concatenate_paragraphs_and_add_chr_182 text).data))
      = tokScan (concatenate_paragraphs_and_add_chr_182 text).data := by
    rw [show (String.data ∘ String.mk) = id from funext fun u => rfl, List.map_id]
  rw [hmk]
  exact tokScanF_flatten _ _ le_rfl (concat_head text)

namespace difflib

/-- Bounds invariant of a candidate best match of `find_longest_match` within
the rectangle `[alo, ahi) x [blo, bhi)`. -/
def BestOK (alo ahi blo bhi : Nat) (best : Nat × Nat × Nat) : Prop :=
  alo ≤ best.1 ∧ blo ≤ best.2.1 ∧ best.1 + best.2.2 ≤ ahi ∧ best.2.1 + best.2.2 ≤ bhi

/-- Invariant of the row function after `m` processed rows: run lengths are
at most `m`, and a nonzero run ending at `j` lies inside `[blo, bhi)` and
has length at most `j + 1 - blo`. -/
def RowOK (blo bhi m : Nat) (row : Nat → Nat) : Prop :=
  ∀ j, row j ≤ m ∧ (row j ≠ 0 → blo ≤ j ∧ j < bhi ∧ row j + blo ≤ j + 1)

theorem nextRow_ok {a b : List String} {blo bhi m i : Nat} {row : Nat → Nat}
    (h : RowOK blo bhi m row) : RowOK blo bhi (m + 1) (nextRow a b i blo bhi row) := by
  intro j
  unfold nextRow
  split
  · rename_i hc
    obtain ⟨h1, h2, -⟩ := hc
    by_cases hj : j = 0
    · subst hj
      rw [if_pos rfl]
      exact ⟨by omega, fun _ => ⟨h1, h2, by omega⟩⟩
    · rw [if_neg hj]
      have hj1 := h (j - 1)
      refine ⟨by omega, fun _ => ⟨h1, h2, ?_⟩⟩
      rcases Nat.eq_zero_or_pos (row (j - 1)) with hz | hp
      · omega
      · have := hj1.2 (by omega)
        omega
  · exact ⟨by omega, fun hz => absurd rfl hz⟩

theorem foldl_rowUpd_ok {alo ahi blo bhi i : Nat} {row : Nat → Nat}
    (hi : alo ≤ i) (hi2 : i < ahi) (hrow : RowOK blo bhi (i + 1 - alo) row) :
    ∀ (js : List Nat) (best : Nat × Nat × Nat), BestOK alo ahi blo bhi best →
      BestOK alo ahi blo bhi (js.foldl (rowUpd i row) best) := by
  intro js
  induction js with
  | nil => intro best hb; exact hb
  | cons j js ih =>
    intro best hb
    apply ih
    simp only [rowUpd]
    split
    · rename_i hlt
      obtain ⟨hb1, hb2, hb3, hb4⟩ := hb
      have h1 := hrow j
      have hnz : row j ≠ 0 := by omega
      obtain ⟨g1, g2, g3⟩ := h1.2 hnz
      have g4 := h1.1
      refine ⟨?_, ?_, ?_, ?_⟩ <;> dsimp only <;> omega
    · exact hb

theorem fmDP_ok {a b : List String} {alo ahi blo bhi : Nat} :
    ∀ (n c : Nat) (row : Nat → Nat) (best : Nat × Nat × Nat),
      alo ≤ c → c + n = ahi → RowOK blo bhi (c - alo) row →
      BestOK alo ahi blo bhi best →
      BestOK alo ahi blo bhi (fmDP a b blo bhi (List.range' c n) row best) := by
  intro n
  induction n with
  | zero =>
    intro c row best _ _ _ hb
    exact hb
  | succ n ih =>
    intro c row best hc hsum hrow hb
    have hr : List.range' c (n + 1) = c :: List.range' (c + 1) n := rfl
    rw [hr, fmDP]
    have hrow2 : RowOK blo bhi ((c + 1) - alo) (nextRow a b c blo bhi row) := by
      have : RowOK blo bhi (c - alo + 1) (nextRow a b c blo bhi row) := nextRow_ok hrow
      have heq : c - alo + 1 = c + 1 - alo := by omega
      rwa [heq] at this
    exact ih (c + 1) _ _ (by omega) (by omega) hrow2
      (foldl_rowUpd_ok hc (by omega) hrow2 _ _ hb)

theorem extendBack_ok {a b : List String} {alo blo ahi bhi : Nat} :
    ∀ (fuel bi bj bs : Nat), alo ≤ bi → blo ≤ bj → bi + bs ≤ ahi → bj + bs ≤ bhi →
      BestOK alo ahi blo bhi (extendBack a b alo blo fuel bi bj bs) := by
  intro fuel
  induction fuel with
  | zero => intro bi bj bs h1 h2 h3 h4; exact ⟨h1, h2, h3, h4⟩
  | succ fuel ih =>
    intro bi bj bs h1 h2 h3 h4
    rw [extendBack]
    split
    · rename_i hc
      exact ih _ _ _ (by omega) (by omega) (by omega) (by omega)
    · exact ⟨h1, h2, h3, h4⟩

theorem extendFwd_ok {a b : List String} {ahi bhi bi bj : Nat} :
    ∀ (fuel bs : Nat), bi + bs ≤ ahi → bj + bs ≤ bhi →
      bi + extendFwd a b ahi bhi bi bj fuel bs ≤ ahi
        ∧ bj + extendFwd a b ahi bhi bi bj fuel bs ≤ bhi := by
  intro fuel
  induction fuel with
  | zero => intro bs h1 h2; exact ⟨h1, h2⟩
  | succ fuel ih =>
    intro bs h1 h2
    rw [extendFwd]
    split
    · rename_i hc
      exact ih (bs + 1) (by omega) (by omega)
    · exact ⟨h1, h2⟩

theorem find_longest_match_ok {a b : List String} {alo ahi blo bhi : Nat}
    (h1 : alo ≤ ahi) (h2 : blo ≤ bhi) :
    BestOK alo ahi blo bhi (find_longest_match a b alo ahi blo bhi) := by
  have hdp : BestOK alo ahi blo bhi
      (fmDP a b blo bhi (List.range' alo (ahi - alo)) (fun _ => 0) (alo, blo, 0)) :=
    fmDP_ok (ahi - alo) alo _ _ le_rfl (by omega)
      (fun j => ⟨Nat.zero_le _, fun hz => absurd rfl hz⟩)
      ⟨le_rfl, le_rfl, by dsimp only; omega, by dsimp only; omega⟩
  set B := fmDP a b blo bhi (List.range' alo (ahi - alo)) (fun _ => 0) (alo, blo, 0) with hB
  obtain ⟨g1, g2, g3, g4⟩ := hdp
  have he := @extendBack_ok a b alo blo ahi bhi B.1 B.1 B.2.1 B.2.2 g1 g2 g3 g4
  set E := extendBack a b alo blo B.1 B.1 B.2.1 B.2.2 with hE
  obtain ⟨e1, e2, e3, e4⟩ := he
  have hf := @extendFwd_ok a b ahi bhi E.1 E.2.1 ahi E.2.2 e3 e4
  show BestOK alo ahi blo bhi (E.1, E.2.1, extendFwd a b ahi bhi E.1 E.2.1 ahi E.2.2)
  exact ⟨e1, e2, hf.1, hf.2⟩

end difflib

namespace difflib

/-- A queue rectangle `(alo, ahi, blo, bhi)` is well formed and lies inside
the `la x lb` grid. -/
def RectOK (la lb : Nat) (r : Nat × Nat × Nat × Nat) : Prop :=
  r.1 ≤ r.2.1 ∧ r.2.2.1 ≤ r.2.2.2 ∧ r.2.1 ≤ la ∧ r.2.2.2 ≤ lb

/-- Two rectangles are comparable: one lies entirely before the other in
both coordinates. -/
def rectComp (r s : Nat × Nat × Nat × Nat) : Prop :=
  (r.2.1 ≤ s.1 ∧ r.2.2.2 ≤ s.2.2.1) ∨ (s.2.1 ≤ r.1 ∧ s.2.2.2 ≤ r.2.2.1)

/-- A found block fits in the grid and is nonempty. -/
def blockOK (la lb : Nat) (x : Block) : Prop :=
  x.1 + x.2.2 ≤ la ∧ x.2.1 + x.2.2 ≤ lb ∧ 1 ≤ x.2.2

/-- Two blocks are comparable: one ends before the other starts in both
coordinates. -/
def blockComp (x y : Block) : Prop :=
  (x.1 + x.2.2 ≤ y.1 ∧ x.2.1 + x.2.2 ≤ y.2.1) ∨ (y.1 + y.2.2 ≤ x.1 ∧ y.2.1 + y.2.2 ≤ x.2.1)

/-- A block and a rectangle are comparable: the block lies entirely before
or entirely after the rectangle in both coordinates. -/
def blockRectComp (x : Block) (r : Nat × Nat × Nat × Nat) : Prop :=
  (x.1 + x.2.2 ≤ r.1 ∧ x.2.1 + x.2.2 ≤ r.2.2.1) ∨ (r.2.1 ≤ x.1 ∧ r.2.2.2 ≤ x.2.1)

theorem blockComp_symm : ∀ {x y : Block}, blockComp x y → blockComp y x :=
  fun h => h.symm

/-- The queue-loop invariant is preserved and yields: every accumulated
block fits in the grid, is nonempty, and the blocks are pairwise
comparable. -/
theorem mbLoop_ok {a b : List String} {la lb : Nat} :
    ∀ (fuel : Nat) (queue : List (Nat × Nat × Nat × Nat)) (acc : List Block),
      (∀ r ∈ queue, RectOK la lb r) → queue.Pairwise rectComp →
      (∀ x ∈ acc, blockOK la lb x) → acc.Pairwise blockComp →
      (∀ x ∈ acc, ∀ r ∈ queue, blockRectComp x r) →
      (∀ x ∈ mbLoop a b fuel queue acc, blockOK la lb x)
        ∧ (mbLoop a b fuel queue acc).Pairwise blockComp := by
  intro fuel
  induction fuel with
  | zero => intro queue acc _ _ h3 h4 _; exact ⟨h3, h4⟩
  | succ fuel ih =>
    intro queue acc hq hqp hacc haccp hx
    match queue with
    | [] => exact ⟨hacc, haccp⟩
    | (alo, ahi, blo, bhi) :: queue =>
      rw [mbLoop]
      have hrect := hq _ (List.mem_cons_self _ _)
      obtain ⟨r1, r2, r3, r4⟩ := hrect
      dsimp only at r1 r2 r3 r4
      have hflm := @find_longest_match_ok a b alo ahi blo bhi r1 r2
      set m := find_longest_match a b alo ahi blo bhi with hm
      obtain ⟨f1, f2, f3, f4⟩ := hflm
      have hqtail : ∀ r ∈ queue, RectOK la lb r :=
        fun r hr => hq r (List.mem_cons_of_mem _ hr)
      have hqptail : queue.Pairwise rectComp := List.Pairwise.of_cons hqp
      have hcomphead : ∀ r ∈ queue, rectComp (alo, ahi, blo, bhi) r :=
        (List.pairwise_cons.mp hqp).1
      have hxtail : ∀ x ∈ acc, ∀ r ∈ queue, blockRectComp x r :=
        fun x hxa r hr => hx x hxa r (List.mem_cons_of_mem _ hr)
      have hxhead : ∀ x ∈ acc, blockRectComp x (alo, ahi, blo, bhi) :=
        fun x hxa => hx x hxa _ (List.mem_cons_self _ _)
      by_cases hk : m.2.2 = 0
      · rw [if_pos hk]
        exact ih queue acc hqtail hqptail hacc haccp hxtail
      · rw [if_neg hk]
        -- the two candidate sub-rectangles
        have hLok : RectOK la lb (alo, m.1, blo, m.2.1) := by
          dsimp only [RectOK]; omega
        have hRok : RectOK la lb (m.1 + m.2.2, ahi, m.2.1 + m.2.2, bhi) := by
          dsimp only [RectOK]; omega
        have hLq : ∀ r ∈ queue, rectComp (alo, m.1, blo, m.2.1) r := by
          intro r hr
          have := hcomphead r hr
          dsimp only [rectComp] at this ⊢
          omega
        have hRq : ∀ r ∈ queue, rectComp (m.1 + m.2.2, ahi, m.2.1 + m.2.2, bhi) r := by
          intro r hr
          have := hcomphead r hr
          dsimp only [rectComp] at this ⊢
          omega
        have hLR : rectComp (alo, m.1, blo, m.2.1) (m.1 + m.2.2, ahi, m.2.1 + m.2.2, bhi) := by
          dsimp only [rectComp]
          omega
        have hmL : blockRectComp m (alo, m.1, blo, m.2.1) := by
          dsimp only [blockRectComp]
          omega
        have hmR : blockRectComp m (m.1 + m.2.2, ahi, m.2.1 + m.2.2, bhi) := by
          dsimp only [blockRectComp]
          omega
        have hmq : ∀ r ∈ queue, blockRectComp m r := by
          intro r hr
          have := hcomphead r hr
          dsimp only [rectComp] at this
          dsimp only [blockRectComp]
          omega
        have haccL : ∀ x ∈ acc, blockRectComp x (alo, m.1, blo, m.2.1) := by
          intro x hxa
          have := hxhead x hxa
          dsimp only [blockRectComp] at this ⊢
          omega
        have haccR : ∀ x ∈ acc,
            blockRectComp x (m.1 + m.2.2, ahi, m.2.1 + m.2.2, bhi) := by
          intro x hxa
          have := hxhead x hxa
          dsimp only [blockRectComp] at this ⊢
          omega
        have hmacc : ∀ x ∈ acc, blockComp m x := by
          intro x hxa
          have := hxhead x hxa
          have hok := hacc x hxa
          dsimp only [blockRectComp] at this
          dsimp only [blockOK] at hok
          dsimp only [blockComp]
          omega
        have hmok : blockOK la lb m := by
          dsimp only [blockOK]
          omega
        -- the updated queue
        set q1 := (if alo < m.1 ∧ blo < m.2.1 then (alo, m.1, blo, m.2.1) :: queue
          else queue) with hq1
        set q2 := (if m.1 + m.2.2 < ahi ∧ m.2.1 + m.2.2 < bhi then
            (m.1 + m.2.2, ahi, m.2.1 + m.2.2, bhi) :: q1 else q1) with hq2
        have hq1ok : (∀ r ∈ q1, RectOK la lb r) ∧ q1.Pairwise rectComp
            ∧ (∀ r ∈ q1, rectComp (m.1 + m.2.2, ahi, m.2.1 + m.2.2, bhi) r)
            ∧ (∀ x ∈ acc, ∀ r ∈ q1, blockRectComp x r)
            ∧ (∀ r ∈ q1, blockRectComp m r) := by
          rw [hq1]
          split
          · refine ⟨?_, ?_, ?_, ?_, ?_⟩
            · intro r hr
              rcases List.mem_cons.mp hr with rfl | hr
              · exact hLok
              · exact hqtail r hr
            · exact List.pairwise_cons.mpr ⟨hLq, hqptail⟩
            · intro r hr
              rcases List.mem_cons.mp hr with rfl | hr
              · exact hLR.symm
              · exact hRq r hr
            · intro x hxa r hr
              rcases List.mem_cons.mp hr with rfl | hr
              · exact haccL x hxa
              · exact hxtail x hxa r hr
            · intro r hr
              rcases List.mem_cons.mp hr with rfl | hr
              · exact hmL
              · exact hmq r hr
          · exact ⟨hqtail, hqptail, hRq, hxtail, hmq⟩
        have hq2ok : (∀ r ∈ q2, RectOK la lb r) ∧ q2.Pairwise rectComp
            ∧ (∀ x ∈ acc, ∀ r ∈ q2, blockRectComp x r)
            ∧ (∀ r ∈ q2, blockRectComp m r) := by
          rw [hq2]
          split
          · refine ⟨?_, ?_, ?_, ?_⟩
            · intro r hr
              rcases List.mem_cons.mp hr with rfl | hr
              · exact hRok
              · exact hq1ok.1 r hr
            · exact List.pairwise_cons.mpr ⟨hq1ok.2.2.1, hq1ok.2.1⟩
            · intro x hxa r hr
              rcases List.mem_cons.mp hr with rfl | hr
              · exact haccR x hxa
              · exact hq1ok.2.2.2.1 x hxa r hr
            · intro r hr
              rcases List.mem_cons.mp hr with rfl | hr
              · exact hmR
              · exact hq1ok.2.2.2.2 r hr
          · exact ⟨hq1ok.1, hq1ok.2.1, hq1ok.2.2.2.1, hq1ok.2.2.2.2⟩
        apply ih q2 (m :: acc) hq2ok.1 hq2ok.2.1
        · intro x hxm
          rcases List.mem_cons.mp hxm with rfl | hxm
          · exact hmok
          · exact hacc x hxm
        · exact List.pairwise_cons.mpr ⟨hmacc, haccp⟩
        · intro x hxm r hr
          rcases List.mem_cons.mp hxm with rfl | hxm
          · exact hq2ok.2.2.2 r hr
          · exact hq2ok.2.2.1 x hxm r hr

end difflib

namespace difflib

/-- Blocks in order, each starting at or after the running position, with the
position advanced past each block. -/
def slackChain : Nat → Nat → List Block → Prop
  | _, _, [] => True
  | i, j, x :: rest =>
    i ≤ x.1 ∧ j ≤ x.2.1 ∧ slackChain (x.1 + x.2.2) (x.2.1 + x.2.2) rest

/-- The position reached after walking a block list. -/
def finalPos : Nat → Nat → List Block → Nat × Nat
  | i, j, [] => (i, j)
  | _, _, x :: rest => finalPos (x.1 + x.2.2) (x.2.1 + x.2.2) rest

/-- The contiguity property of an opcode list: each opcode starts exactly at
the running position in both sequences (the first therefore at the given
start), its ranges are forward, and after the last opcode the positions are
exactly `la` and `lb`. -/
def chainFrom : Nat → Nat → Nat → Nat → List Opcode → Prop
  | i, j, la, lb, [] => i = la ∧ j = lb
  | i, j, la, lb, op :: rest =>
    op.2.1 = i ∧ op.2.2.2.1 = j ∧ op.2.1 ≤ op.2.2.1 ∧ op.2.2.2.1 ≤ op.2.2.2.2
      ∧ chainFrom op.2.2.1 op.2.2.2.2 la lb rest

theorem slackChain_mono {i j i' j' : Nat} {l : List Block} (hi : i ≤ i') (hj : j ≤ j')
    (h : slackChain i' j' l) : slackChain i j l := by
  cases l with
  | nil => trivial
  | cons x t => exact ⟨le_trans hi h.1, le_trans hj h.2.1, h.2.2⟩

theorem finalPos_append_last (la lb : Nat) :
    ∀ (l : List Block) (i j : Nat), finalPos i j (l ++ [(la, lb, 0)]) = (la, lb) := by
  intro l
  induction l with
  | nil => intro i j; rfl
  | cons x t ih => intro i j; exact ih _ _

/-- A lexicographically sorted list of pairwise comparable nonempty blocks is
chained from the origin. -/
theorem slackChain_of_sorted :
    ∀ (l : List Block), l.Pairwise blockComp → l.Sorted blockLe →
      (∀ x ∈ l, 1 ≤ x.2.2) → slackChain 0 0 l := by
  intro l
  induction l with
  | nil => intro _ _ _; trivial
  | cons x rest ih =>
    intro hp hs hk
    have hrest := ih (List.Pairwise.of_cons hp) hs.of_cons
      (fun y hy => hk y (List.mem_cons_of_mem _ hy))
    refine ⟨Nat.zero_le _, Nat.zero_le _, ?_⟩
    match rest, hrest with
    | [], _ => trivial
    | y :: t, hr =>
      obtain ⟨-, -, htail⟩ := hr
      have hcomp : blockComp x y := (List.pairwise_cons.mp hp).1 y (List.mem_cons_self _ _)
      have hle : blockLe x y := (List.pairwise_cons.mp hs).1 y (List.mem_cons_self _ _)
      have hky : 1 ≤ y.2.2 := hk y (List.mem_cons_of_mem _ (List.mem_cons_self _ _))
      refine ⟨?_, ?_, htail⟩ <;>
        (dsimp only [blockComp] at hcomp; dsimp only [blockLe] at hle; omega)

/-- The coalescing loop turns a chained, fitting block list into a chained
list whose appended terminal block reaches exactly `(la, lb)`. -/
theorem mergeAdj_chain {la lb : Nat} :
    ∀ (bs : List Block) (i1 j1 k1 : Nat),
      slackChain (i1 + k1) (j1 + k1) bs →
      (∀ x ∈ bs, x.1 + x.2.2 ≤ la ∧ x.2.1 + x.2.2 ≤ lb) →
      i1 + k1 ≤ la → j1 + k1 ≤ lb →
      slackChain i1 j1 (mergeAdj (i1, j1, k1) bs ++ [(la, lb, 0)]) := by
  intro bs
  induction bs with
  | nil =>
    intro i1 j1 k1 _ _ hla hlb
    rw [mergeAdj]
    by_cases hk : k1 = 0
    · rw [if_pos hk]
      refine ⟨?_, ?_, trivial⟩ <;> dsimp only <;> omega
    · rw [if_neg hk]
      refine ⟨?_, ?_, ?_, ?_, trivial⟩ <;> dsimp only <;> omega
  | cons hd rest ih =>
    intro i1 j1 k1 hchain hfits hla hlb
    obtain ⟨ai, bj, k2⟩ := hd
    obtain ⟨h1, h2, h3⟩ := hchain
    dsimp only at h1 h2 h3
    obtain ⟨hf1, hf2⟩ := hfits (ai, bj, k2) (List.mem_cons_self _ _)
    dsimp only at hf1 hf2
    rw [mergeAdj]
    by_cases hadj : i1 + k1 = ai ∧ j1 + k1 = bj
    · rw [if_pos hadj]
      have hch : slackChain (i1 + (k1 + k2)) (j1 + (k1 + k2)) rest := by
        have : i1 + (k1 + k2) = ai + k2 := by omega
        have h2' : j1 + (k1 + k2) = bj + k2 := by omega
        rw [this, h2']
        exact h3
      exact ih i1 j1 (k1 + k2)
        hch (fun x hx => hfits x (List.mem_cons_of_mem _ hx)) (by omega) (by omega)
    · rw [if_neg hadj]
      by_cases hk : k1 = 0
      · rw [if_pos hk]
        have := ih ai bj k2 h3 (fun x hx => hfits x (List.mem_cons_of_mem _ hx)) hf1 hf2
        refine slackChain_mono ?_ ?_ this <;> omega
      · rw [if_neg hk]
        refine ⟨?_, ?_, ?_⟩
        · dsimp only
          omega
        · dsimp only
          omega
        · have := ih ai bj k2 h3 (fun x hx => hfits x (List.mem_cons_of_mem _ hx)) hf1 hf2
          refine slackChain_mono ?_ ?_ this <;> dsimp only <;> omega

/-- The opcode-emitting loop of a chained block list produces contiguous
opcodes up to the walk's final position. -/
theorem opcodesLoop_chain :
    ∀ (bs : List Block) (i j : Nat), slackChain i j bs →
      chainFrom i j (finalPos i j bs).1 (finalPos i j bs).2 (opcodesLoop i j bs) := by
  intro bs
  induction bs with
  | nil => intro i j _; exact ⟨rfl, rfl⟩
  | cons x rest ih =>
    intro i j hchain
    obtain ⟨ai, bj, k⟩ := x
    obtain ⟨h1, h2, h3⟩ := hchain
    dsimp only at h1 h2 h3
    have hfp : finalPos i j ((ai, bj, k) :: rest) = finalPos (ai + k) (bj + k) rest := rfl
    rw [hfp, opcodesLoop]
    have ihr := ih (ai + k) (bj + k) h3
    by_cases hg1 : i < ai ∧ j < bj
    · rw [if_pos hg1]
      by_cases hk : k ≠ 0
      · rw [if_pos hk]
        refine ⟨rfl, rfl, ?_, ?_, rfl, rfl, ?_, ?_, ihr⟩ <;> dsimp only <;> omega
      · rw [if_neg hk]
        have hk0 : k = 0 := by omega
        subst hk0
        refine ⟨rfl, rfl, ?_, ?_, ?_⟩
        · dsimp only; omega
        · dsimp only; omega
        · simpa using ihr
    · rw [if_neg hg1]
      by_cases hg2 : i < ai
      · rw [if_pos hg2]
        have hj : j = bj := by omega
        by_cases hk : k ≠ 0
        · rw [if_pos hk]
          refine ⟨rfl, rfl, ?_, ?_, rfl, rfl, ?_, ?_, ihr⟩ <;> dsimp only <;> omega
        · rw [if_neg hk]
          have hk0 : k = 0 := by omega
          subst hk0
          refine ⟨rfl, rfl, ?_, ?_, ?_⟩
          · dsimp only; omega
          · dsimp only; omega
          · simpa using ihr
      · rw [if_neg hg2]
        have hi : i = ai := by omega
        by_cases hg3 : j < bj
        · rw [if_pos hg3]
          by_cases hk : k ≠ 0
          · rw [if_pos hk]
            refine ⟨rfl, rfl, ?_, ?_, rfl, rfl, ?_, ?_, ihr⟩ <;> dsimp only <;> omega
          · rw [if_neg hk]
            have hk0 : k = 0 := by omega
            subst hk0
            refine ⟨rfl, rfl, ?_, ?_, ?_⟩
            · dsimp only; omega
            · dsimp only; omega
            · simpa using ihr
        · rw [if_neg hg3]
          have hj : j = bj := by omega
          by_cases hk : k ≠ 0
          · rw [if_pos hk]
            subst hi; subst hj
            refine ⟨rfl, rfl, ?_, ?_, ihr⟩ <;> dsimp only <;> omega
          · rw [if_neg hk]
            have hk0 : k = 0 := by omega
            subst hk0; subst hi; subst hj
            simpa using ihr

/-- Every opcode list produced by `get_opcodes` is contiguous: the first
opcode starts at 0 in both sequences, consecutive opcodes meet exactly, and
the last ends at the two sequence lengths. -/
theorem get_opcodes_chain (a b : List String) :
    chainFrom 0 0 a.length b.length (get_opcodes a b) := by
  unfold get_opcodes get_matching_blocks
  have hraw := @mbLoop_ok a b a.length b.length
    (a.length + b.length + 1) [(0, a.length, 0, b.length)] []
    (by
      intro r hr
      rcases List.mem_singleton.mp hr with rfl
      exact ⟨Nat.zero_le _, Nat.zero_le _, le_refl _, le_refl _⟩)
    (List.pairwise_singleton _ _)
    (by intro x hx; simp at hx)
    List.Pairwise.nil
    (by intro x hx; simp at hx)
  set raw := mbLoop a b (a.length + b.length + 1) [(0, a.length, 0, b.length)] [] with hraws
  obtain ⟨hOK, hPComp⟩ := hraw
  have hperm := List.perm_insertionSort blockLe raw
  have hsorted := List.sorted_insertionSort blockLe raw
  have hOK' : ∀ x ∈ raw.insertionSort blockLe, blockOK a.length b.length x :=
    fun x hxs => hOK x (hperm.mem_iff.mp hxs)
  have hPComp' : (raw.insertionSort blockLe).Pairwise blockComp :=
    (hperm.pairwise_iff (fun h => blockComp_symm h)).mpr hPComp
  have hchain := slackChain_of_sorted _ hPComp' hsorted (fun x hx => (hOK' x hx).2.2)
  have hmerge := @mergeAdj_chain a.length b.length
    (raw.insertionSort blockLe) 0 0 0 hchain
    (fun x hx => ⟨(hOK' x hx).1, (hOK' x hx).2.1⟩) (Nat.zero_le _) (Nat.zero_le _)
  have := opcodesLoop_chain _ 0 0 hmerge
  rwa [finalPos_append_last] at this

end difflib

/-- C1: for every source/test pair with a test text set, the opcode list is
ordered and contiguous: each opcode's sourceEnd/testEnd equals the next
opcode's sourceStart/testStart, the first opcode starts at 0 in both
sequences, and the last opcode ends at the lengths of the source and test
token sequences. -/
theorem C1_opcodes_contiguous (source test : String) (o : Options)
    (ops : List difflib.Opcode)
    (h : (Redlines.make source (some test) o).opcodes = .ok ops) :
    difflib.chainFrom 0 0 (buildSeq source).length (buildSeq test).length ops := by
  by_cases ht : test = ""
  · subst ht
    simp [Redlines.make, Redlines.opcodes] at h
  · have hops : ops = difflib.get_opcodes (buildSeq source) (buildSeq test) := by
      simp only [Redlines.make, if_neg ht, Redlines.opcodes] at h
      exact (Except.ok.injEq _ _ ▸ h).symm
    rw [hops]
    exact difflib.get_opcodes_chain _ _

/-- C1 witness at a concrete comparison. -/
theorem C1_opcodes_contiguous_witness :
    ((Redlines.make "a b" (some "a c") {}).opcodes
        = .ok [("equal", 0, 1, 0, 1), ("replace", 1, 2, 1, 2)])
      ∧ difflib.chainFrom 0 0 (buildSeq "a b").length (buildSeq "a c").length
          [("equal", 0, 1, 0, 1), ("replace", 1, 2, 1, 2)] :=
  ⟨by decide, C1_opcodes_contiguous "a b" "a c" {} _ (by decide)⟩

namespace difflib

/-- The row functions of the dynamic program run on `(a, a)` over the full
rectangle: `rowsI a m` is `j2len` after the first `m` rows. -/
def rowsI (a : List String) : Nat → Nat → Nat
  | 0 => fun _ => 0
  | m + 1 => nextRow a a m 0 a.length (rowsI a m)

/-- The best accumulator of the dynamic program run on `(a, a)` over the
full rectangle, after the first `m` rows. -/
def bestI (a : List String) : Nat → Nat × Nat × Nat
  | 0 => (0, 0, 0)
  | m + 1 => (matchJs a a m 0 a.length).foldl (rowUpd m (rowsI a (m + 1))) (bestI a m)

theorem bestI_succ (a : List String) (m : Nat) :
    bestI a (m + 1)
      = (matchJs a a m 0 a.length).foldl (rowUpd m (rowsI a (m + 1))) (bestI a m) := rfl

theorem fmDP_eq_bestI (a : List String) :
    ∀ (n c : Nat), c + n = a.length →
      fmDP a a 0 a.length (List.range' c n) (rowsI a c) (bestI a c) = bestI a a.length := by
  intro n
  induction n with
  | zero =>
    intro c hc
    have : c = a.length := by omega
    subst this
    rfl
  | succ n ih =>
    intro c hc
    have hr : List.range' c (n + 1) = c :: List.range' (c + 1) n := rfl
    rw [hr, fmDP]
    exact ih (c + 1) (by omega)

/-- In the identity case a matchable pair makes the row's own diagonal position matchable. -/
theorem tokMatch_left {a : List String} {m j : Nat} (h : tokMatch a a m j = true) :
    tokMatch a a m m = true := by
  unfold tokMatch at h ⊢
  cases hm : a.get? m with
  | none =>
    rw [hm] at h
    cases hj : a.get? j with
    | none => rw [hj] at h; simp at h
    | some y => rw [hj] at h; simp at h
  | some x =>
    rw [hm] at h
    cases hj : a.get? j with
    | none => rw [hj] at h; simp at h
    | some y =>
      rw [hj] at h
      have h' : (x == y && !popularIn a y) = true := h
      rw [Bool.and_eq_true] at h'
      have hxy : x = y := eq_of_beq h'.1
      show (x == x && !popularIn a x) = true
      rw [hxy]
      simp [h'.2]

/-- In the identity case a matchable pair makes the column's own diagonal position matchable. -/
theorem tokMatch_right {a : List String} {m j : Nat} (h : tokMatch a a m j = true) :
    tokMatch a a j j = true := by
  unfold tokMatch at h ⊢
  cases hm : a.get? m with
  | none =>
    rw [hm] at h
    cases hj : a.get? j with
    | none => rw [hj] at h; simp at h
    | some y => rw [hj] at h; simp at h
  | some x =>
    rw [hm] at h
    cases hj : a.get? j with
    | none => rw [hj] at h; simp at h
    | some y =>
      rw [hj] at h
      have h' : (x == y && !popularIn a y) = true := h
      rw [Bool.and_eq_true] at h'
      show (y == y && !popularIn a y) = true
      simp [h'.2]

/-- Below the diagonal, a run ending at column j of a later row is no longer than the diagonal run ending at (j, j). -/
theorem rowsI_left (a : List String) :
    ∀ (j m : Nat), j < m → rowsI a (m + 1) j ≤ rowsI a (j + 1) j := by
  intro j
  induction j with
  | zero =>
    intro m hm
    show nextRow a a m 0 a.length (rowsI a m) 0 ≤ nextRow a a 0 0 a.length (rowsI a 0) 0
    unfold nextRow
    split
    · rename_i hc
      obtain ⟨-, hlt, hmatch⟩ := hc
      have hcond : (0:Nat) ≤ 0 ∧ 0 < a.length ∧ tokMatch a a 0 0 = true :=
        ⟨Nat.le_refl 0, hlt, tokMatch_right hmatch⟩
      rw [if_pos hcond]
      simp
    · exact Nat.zero_le _
  | succ j ih =>
    intro m hm
    show nextRow a a m 0 a.length (rowsI a m) (j + 1)
        ≤ nextRow a a (j + 1) 0 a.length (rowsI a (j + 1)) (j + 1)
    unfold nextRow
    split
    · rename_i hc
      obtain ⟨-, hlt, hmatch⟩ := hc
      have hcond : (0:Nat) ≤ j + 1 ∧ j + 1 < a.length ∧ tokMatch a a (j + 1) (j + 1) = true :=
        ⟨Nat.zero_le _, hlt, tokMatch_right hmatch⟩
      rw [if_pos hcond]
      rw [if_neg (Nat.succ_ne_zero j)]
      simp only [Nat.add_sub_cancel]
      obtain ⟨m', rfl⟩ : ∃ m', m = m' + 1 := ⟨m - 1, by omega⟩
      exact Nat.succ_le_succ (ih m' (by omega))
    · exact Nat.zero_le _

/-- Above the diagonal, a run ending at column j of a row is no longer than the diagonal run ending at the row's own column. -/
theorem rowsI_right (a : List String) :
    ∀ (m j : Nat), m < j → rowsI a (m + 1) j ≤ rowsI a (m + 1) m := by
  intro m
  induction m with
  | zero =>
    intro j hj
    show nextRow a a 0 0 a.length (rowsI a 0) j ≤ nextRow a a 0 0 a.length (rowsI a 0) 0
    unfold nextRow
    split
    · rename_i hc
      obtain ⟨-, hlt, hmatch⟩ := hc
      have hcond : (0:Nat) ≤ 0 ∧ 0 < a.length ∧ tokMatch a a 0 0 = true :=
        ⟨Nat.le_refl 0, by omega, tokMatch_left hmatch⟩
      rw [if_pos hcond]
      rw [if_neg (by omega : ¬ (j = 0)), if_pos rfl]
      simp [rowsI]
    · exact Nat.zero_le _
  | succ m ih =>
    intro j hj
    show nextRow a a (m + 1) 0 a.length (rowsI a (m + 1)) j
        ≤ nextRow a a (m + 1) 0 a.length (rowsI a (m + 1)) (m + 1)
    unfold nextRow
    split
    · rename_i hc
      obtain ⟨-, hlt, hmatch⟩ := hc
      have hcond : (0:Nat) ≤ m + 1 ∧ m + 1 < a.length ∧ tokMatch a a (m + 1) (m + 1) = true :=
        ⟨Nat.zero_le _, by omega, tokMatch_left hmatch⟩
      rw [if_pos hcond]
      rw [if_neg (by omega : ¬ (j = 0)), if_neg (Nat.succ_ne_zero m)]
      simp only [Nat.add_sub_cancel]
      have hrec : rowsI a (m + 1) (j - 1) ≤ rowsI a (m + 1) m := by
        rcases Nat.lt_or_ge m (j - 1) with hgt | hle
        · exact ih (j - 1) hgt
        · have hje : j - 1 = m := by omega
          rw [hje]
      exact Nat.succ_le_succ hrec
    · exact Nat.zero_le _

theorem tokEq_refl {a : List String} {i : Nat} (h : i < a.length) : tokEq a a i i = true := by
  unfold tokEq
  rw [List.get?_eq_get h]
  simp

theorem foldl_rowUpd_noupd {i : Nat} {row : Nat → Nat} :
    ∀ (js : List Nat) (best : Nat × Nat × Nat), (∀ j ∈ js, row j ≤ best.2.2) →
      js.foldl (rowUpd i row) best = best := by
  intro js
  induction js with
  | nil => intro best _; rfl
  | cons j js ih =>
    intro best hb
    rw [List.foldl_cons]
    have hupd : rowUpd i row best j = best := by
      simp only [rowUpd]
      rw [if_neg (by have := hb j (List.mem_cons_self _ _); omega)]
    rw [hupd]
    exact ih best (fun j' hj' => hb j' (List.mem_cons_of_mem _ hj'))

theorem foldl_rowUpd_size_mono {i : Nat} {row : Nat → Nat} :
    ∀ (js : List Nat) (best : Nat × Nat × Nat),
      best.2.2 ≤ (js.foldl (rowUpd i row) best).2.2 := by
  intro js
  induction js with
  | nil => intro best; exact le_refl _
  | cons j js ih =>
    intro best
    rw [List.foldl_cons]
    refine le_trans ?_ (ih (rowUpd i row best j))
    simp only [rowUpd]
    split
    · rename_i h; dsimp only; omega
    · exact le_refl _

theorem range'_split : ∀ (m n s : Nat), m ≤ n →
    List.range' s n = List.range' s m ++ List.range' (s + m) (n - m) := by
  intro m
  induction m with
  | zero => intro n s _; simp
  | succ m ih =>
    intro n s hm
    obtain ⟨n', rfl⟩ : ∃ n', n = n' + 1 := ⟨n - 1, by omega⟩
    rw [show List.range' s (n' + 1) = s :: List.range' (s + 1) n' from rfl,
      show List.range' s (m + 1) = s :: List.range' (s + 1) m from rfl]
    rw [List.cons_append]
    congr 1
    rw [ih n' (s + 1) (by omega)]
    have e1 : s + 1 + m = s + (m + 1) := by omega
    have e2 : n' - m = n' + 1 - (m + 1) := by omega
    rw [e1, e2]

theorem bestI_diag (a : List String) :
    ∀ (m : Nat), (bestI a m).1 = (bestI a m).2.1
      ∧ ∀ m' < m, rowsI a (m' + 1) m' ≤ (bestI a m).2.2 := by
  intro m
  induction m with
  | zero => exact ⟨rfl, fun m' hm' => absurd hm' (Nat.not_lt_zero m')⟩
  | succ m ih =>
    obtain ⟨ihd, ihb⟩ := ih
    by_cases hmn : m < a.length
    · have hsplit : matchJs a a m 0 a.length
          = ((List.range' 0 m).filter fun j => tokMatch a a m j)
            ++ ((List.range' m (a.length - m)).filter fun j => tokMatch a a m j) := by
        unfold matchJs
        rw [Nat.sub_zero, range'_split m a.length 0 (by omega), List.filter_append,
          Nat.zero_add]
      have hmid : List.range' m (a.length - m)
          = m :: List.range' (m + 1) (a.length - m - 1) := by
        obtain ⟨k, hk⟩ : ∃ k, a.length - m = k + 1 := ⟨a.length - m - 1, by omega⟩
        rw [hk, show List.range' m (k + 1) = m :: List.range' (m + 1) k from rfl]
        simp only [Nat.add_sub_cancel]
      have hlow : ((List.range' 0 m).filter fun j => tokMatch a a m j).foldl
          (rowUpd m (rowsI a (m + 1))) (bestI a m) = bestI a m := by
        apply foldl_rowUpd_noupd
        intro j hj
        have hjm : j < m := by
          have h1 := (List.mem_filter.mp hj).1
          have h2 := List.mem_range'_1.mp h1
          omega
        calc rowsI a (m + 1) j ≤ rowsI a (j + 1) j := rowsI_left a j m hjm
          _ ≤ (bestI a m).2.2 := ihb j hjm
      rw [bestI_succ, hsplit, List.foldl_append, hlow, hmid, List.filter_cons]
      by_cases hpm : tokMatch a a m m = true
      · rw [if_pos hpm, List.foldl_cons]
        set best1 := rowUpd m (rowsI a (m + 1)) (bestI a m) m with hbest1
        have hb1 : best1.1 = best1.2.1 ∧ (bestI a m).2.2 ≤ best1.2.2
            ∧ rowsI a (m + 1) m ≤ best1.2.2 := by
          rw [hbest1]
          simp only [rowUpd]
          split
          · rename_i hlt
            refine ⟨rfl, by dsimp only; omega, by dsimp only; omega⟩
          · rename_i hlt
            exact ⟨ihd, le_refl _, by omega⟩
        have hhigh : ((List.range' (m + 1) (a.length - m - 1)).filter
            fun j => tokMatch a a m j).foldl (rowUpd m (rowsI a (m + 1))) best1 = best1 := by
          apply foldl_rowUpd_noupd
          intro j hj
          have hjm : m < j := by
            have h1 := (List.mem_filter.mp hj).1
            have h2 := List.mem_range'_1.mp h1
            omega
          calc rowsI a (m + 1) j ≤ rowsI a (m + 1) m := rowsI_right a m j hjm
            _ ≤ best1.2.2 := hb1.2.2
        rw [hhigh]
        refine ⟨hb1.1, ?_⟩
        intro m' hm'
        rcases Nat.lt_or_ge m' m with h' | h'
        · exact le_trans (ihb m' h') hb1.2.1
        · have he : m' = m := by omega
          subst he
          exact hb1.2.2
      · rw [if_neg hpm]
        have hhigh0 : ((List.range' (m + 1) (a.length - m - 1)).filter
            fun j => tokMatch a a m j) = [] := by
          rw [List.filter_eq_nil_iff]
          intro j hj hpj
          exact hpm (tokMatch_left hpj)
        rw [hhigh0, List.foldl_nil]
        refine ⟨ihd, ?_⟩
        intro m' hm'
        rcases Nat.lt_or_ge m' m with h' | h'
        · exact ihb m' h'
        · have he : m' = m := by omega
          subst he
          have hz : rowsI a (m' + 1) m' = 0 := by
            show nextRow a a m' 0 a.length (rowsI a m') m' = 0
            unfold nextRow
            rw [if_neg (fun hc => hpm hc.2.2)]
          rw [hz]
          exact Nat.zero_le _
    · have hall : ((matchJs a a m 0 a.length).foldl
          (rowUpd m (rowsI a (m + 1))) (bestI a m)) = bestI a m := by
        apply foldl_rowUpd_noupd
        intro j hj
        have hjm : j < m := by
          have h1 := (List.mem_filter.mp hj).1
          have h2 := List.mem_range'_1.mp h1
          omega
        calc rowsI a (m + 1) j ≤ rowsI a (j + 1) j := rowsI_left a j m hjm
          _ ≤ (bestI a m).2.2 := ihb j hjm
      rw [bestI_succ, hall]
      refine ⟨ihd, ?_⟩
      intro m' hm'
      rcases Nat.lt_or_ge m' m with h' | h'
      · exact ihb m' h'
      · have he : m' = m := by omega
        subst he
        have hz : rowsI a (m' + 1) m' = 0 := by
          show nextRow a a m' 0 a.length (rowsI a m') m' = 0
          unfold nextRow
          rw [if_neg (fun hc => absurd hc.2.1 (by omega))]
        rw [hz]
        exact Nat.zero_le _

theorem extendBack_identity (a : List String) :
    ∀ (bi bs : Nat), bi ≤ a.length →
      extendBack a a 0 0 bi bi bi bs = (0, 0, bs + bi) := by
  intro bi
  induction bi with
  | zero => intro bs _; rfl
  | succ bi ih =>
    intro bs hle
    rw [extendBack]
    have hcond : 0 < bi + 1 ∧ 0 < bi + 1 ∧ tokEq a a (bi + 1 - 1) (bi + 1 - 1) = true := by
      refine ⟨Nat.succ_pos _, Nat.succ_pos _, ?_⟩
      simp only [Nat.add_sub_cancel]
      exact tokEq_refl (by omega)
    rw [if_pos hcond]
    simp only [Nat.add_sub_cancel]
    rw [ih (bs + 1) (by omega)]
    have he : bs + 1 + bi = bs + (bi + 1) := by omega
    rw [he]

theorem extendFwd_identity (a : List String) :
    ∀ (fuel bs : Nat), a.length - bs ≤ fuel → bs ≤ a.length →
      extendFwd a a a.length a.length 0 0 fuel bs = a.length := by
  intro fuel
  induction fuel with
  | zero =>
    intro bs h1 h2
    show bs = a.length
    omega
  | succ fuel ih =>
    intro bs h1 h2
    rw [extendFwd]
    by_cases hbs : bs < a.length
    · have hcond : 0 + bs < a.length ∧ 0 + bs < a.length
          ∧ tokEq a a (0 + bs) (0 + bs) = true := by
        simp only [Nat.zero_add]
        exact ⟨hbs, hbs, tokEq_refl hbs⟩
      rw [if_pos hcond]
      exact ih (bs + 1) (by omega) (by omega)
    · rw [if_neg (fun hc => absurd hc.1 (by omega))]
      omega

theorem find_longest_match_identity (a : List String) :
    find_longest_match a a 0 a.length 0 a.length = (0, 0, a.length) := by
  have hbest : fmDP a a 0 a.length (List.range' 0 (a.length - 0)) (fun _ => 0) (0, 0, 0)
      = bestI a a.length := fmDP_eq_bestI a a.length 0 (Nat.zero_add _)
  have hok : BestOK 0 a.length 0 a.length (bestI a a.length) := by
    rw [← hbest]
    exact fmDP_ok (a.length - 0) 0 _ _ le_rfl (by omega)
      (fun j => ⟨Nat.zero_le _, fun hz => absurd rfl hz⟩)
      ⟨le_rfl, le_rfl, by dsimp only; omega, by dsimp only; omega⟩
  set B := fmDP a a 0 a.length (List.range' 0 (a.length - 0)) (fun _ => 0) (0, 0, 0) with hBdef
  have hBval : B = bestI a a.length := hbest
  have hdiag : B.1 = B.2.1 := by rw [hBval]; exact (bestI_diag a a.length).1
  have g3 : B.1 + B.2.2 ≤ a.length := by rw [hBval]; exact hok.2.2.1
  set E := extendBack a a 0 0 B.1 B.1 B.2.1 B.2.2 with hEdef
  have hEval : E = (0, 0, B.2.2 + B.1) := by
    rw [hEdef, ← hdiag]
    exact extendBack_identity a B.1 B.2.2 (by omega)
  show (E.1, E.2.1, extendFwd a a a.length a.length E.1 E.2.1 a.length E.2.2)
      = (0, 0, a.length)
  rw [hEval]
  dsimp only
  rw [extendFwd_identity a a.length (B.2.2 + B.1) (by omega) (by omega)]

theorem mbLoop_nil (a b : List String) (acc : List Block) :
    ∀ fuel, mbLoop a b fuel [] acc = acc := by
  intro fuel
  cases fuel <;> rfl

theorem get_matching_blocks_identity (a : List String) (h : a ≠ []) :
    get_matching_blocks a a = [(0, 0, a.length), (a.length, a.length, 0)] := by
  have hn : 0 < a.length := List.length_pos.mpr h
  have hraw : mbLoop a a (a.length + a.length + 1) [(0, a.length, 0, a.length)] []
      = [(0, 0, a.length)] := by
    rw [mbLoop, find_longest_match_identity]
    dsimp only
    rw [if_neg (by omega : ¬ (a.length = 0))]
    rw [if_neg (by omega : ¬ ((0:Nat) < 0 ∧ (0:Nat) < 0))]
    rw [if_neg (by omega : ¬ (0 + a.length < a.length ∧ 0 + a.length < a.length))]
    exact mbLoop_nil a a _ _
  show mergeAdj (0, 0, 0)
      ((mbLoop a a (a.length + a.length + 1) [(0, a.length, 0, a.length)]
        []).insertionSort blockLe)
      ++ [(a.length, a.length, 0)]
    = [(0, 0, a.length), (a.length, a.length, 0)]
  rw [hraw]
  show mergeAdj (0, 0, 0) [(0, 0, a.length)] ++ [(a.length, a.length, 0)]
    = [(0, 0, a.length), (a.length, a.length, 0)]
  rw [mergeAdj, if_pos ⟨rfl, rfl⟩, mergeAdj,
    if_neg (by omega : ¬ (0 + a.length = 0))]
  simp

theorem get_opcodes_identity (a : List String) (h : a ≠ []) :
    get_opcodes a a = [("equal", 0, a.length, 0, a.length)] := by
  have hn : 0 < a.length := List.length_pos.mpr h
  unfold get_opcodes
  rw [get_matching_blocks_identity a h]
  rw [opcodesLoop]
  rw [if_neg (by omega : ¬ ((0:Nat) < 0 ∧ (0:Nat) < 0)),
    if_neg (by omega : ¬ ((0:Nat) < 0)),
    if_neg (by omega : ¬ ((0:Nat) < 0)),
    if_pos (by omega : a.length ≠ 0)]
  rw [opcodesLoop]
  rw [if_neg (by omega : ¬ (0 + a.length < a.length ∧ 0 + a.length < a.length)),
    if_neg (by omega : ¬ (0 + a.length < a.length)),
    if_neg (by omega : ¬ (0 + a.length < a.length)),
    if_neg (by simp : ¬ ((0:Nat) ≠ 0))]
  rw [opcodesLoop]
  simp [Nat.zero_add]

end difflib

/-- C5 (amended): when the compared text tokenizes to a nonempty sequence,
comparing it with itself yields a single `equal` opcode spanning the whole
token sequence. -/
theorem C5_identity (T : String) (o : Options) (h : buildSeq T ≠ []) :
    (Redlines.make T (some T) o).opcodes
      = .ok [("equal", 0, (buildSeq T).length, 0, (buildSeq T).length)] := by
  have hT : T ≠ "" := by
    intro he
    subst he
    exact h (by decide)
  simp only [Redlines.make, if_neg hT, Redlines.opcodes]
  rw [difflib.get_opcodes_identity (buildSeq T) h]

/-- C5 witness at the text "a". -/
theorem C5_identity_witness :
    buildSeq "a" ≠ []
      ∧ (Redlines.make "a" (some "a") {}).opcodes
          = .ok [("equal", 0, (buildSeq "a").length, 0, (buildSeq "a").length)] :=
  ⟨by decide, C5_identity "a" {} (by decide)⟩
